import Mathlib

/-!
Shallow embedding of the `quantum-sim-native` crate (state-vector quantum
simulator).  The embedding covers `src/gates.rs` (the gate catalog) and
`src/quantum_state.rs` (the state-vector engine: `QuantumState::new`,
`apply_single_qubit_gate`, `apply_two_qubit_gate`, `measure`,
`get_probabilities`, `get_fidelity`).

Modelling conventions:
* `Complex64` (a pair of `f64`) is modelled exactly as a pair of rationals
  (`Cplx`): the claims under study are about which linear combinations the
  code computes, not about floating-point rounding.
* `DVector<Complex64>` is a `List Cplx`; `usize` indices are `Nat`
  (`1 << k` is written `2 ^ k`, which is `Nat.one_shiftLeft`).
* An out-of-bounds `DVector` index access panics in Rust; a panicking call
  is modelled as `Except.error SimError.indexOutOfBounds`.  Because the
  Rust methods assign `self.amplitudes = new_amplitudes` only after the
  loop finishes, a panic leaves the caller's vector untouched, which the
  `Except` result models: an `.error` result carries no new state.
  `SimError.invalidQubitIndex` is the structured error the specification
  names; the source never constructs it (the constructor exists so that
  the spec's claims about it can be stated).
* The `rand::thread_rng` draws of `measure` are modelled as an explicit
  input stream `draws : List ℚ` of uniform values in `[0,1)`, one per shot.
* The Rust `HashMap<String, usize>` accumulated via
  `*results.entry(bitstring).or_insert(0) += 1` is modelled as an
  association list updated by `bump` (key order is irrelevant to every
  claim under study).
-/

/-- Exact model of `num_complex::Complex64`: a complex number as a pair of
rational components. -/
structure Cplx where
  re : ℚ
  im : ℚ
deriving DecidableEq, Repr

instance : Zero Cplx := ⟨⟨0, 0⟩⟩

instance : One Cplx := ⟨⟨1, 0⟩⟩

instance : Add Cplx := ⟨fun a b => ⟨a.re + b.re, a.im + b.im⟩⟩

instance : Neg Cplx := ⟨fun a => ⟨-a.re, -a.im⟩⟩

instance : Mul Cplx := ⟨fun a b => ⟨a.re * b.re - a.im * b.im, a.re * b.im + a.im * b.re⟩⟩

/-- `Complex64::conj`. -/
def Cplx.conj (a : Cplx) : Cplx := ⟨a.re, -a.im⟩

/-- `Complex64::norm_sqr`: `re*re + im*im`. -/
def Cplx.normSq (a : Cplx) : ℚ := a.re * a.re + a.im * a.im

/-! ## Gate catalog (`src/gates.rs`)

Matrices are flattened row-major lists, exactly as the Rust arrays
`[Complex64; 4]`, `[Complex64; 16]`, `[Complex64; 64]`.  Only the catalog
entries the claims mention are embedded; the irrational entries
(Hadamard, rotations) play no role in any claim. -/

/-- `Gates::identity`. -/
def Gates.identity : List Cplx := [1, 0, 0, 1]

/-- `Gates::pauli_x`. -/
def Gates.pauli_x : List Cplx := [0, 1, 1, 0]

/-- `Gates::pauli_z`. -/
def Gates.pauli_z : List Cplx := [1, 0, 0, -1]

/-- `Gates::cnot`: zeros, then entries 0, 5, 14, 11 set to one. -/
def Gates.cnot : List Cplx :=
  ((((List.replicate 16 (0 : Cplx)).set 0 1).set 5 1).set 14 1).set 11 1

/-- `Gates::cz`: zeros, then entries 0, 5, 10 set to one and 15 to minus one. -/
def Gates.cz : List Cplx :=
  ((((List.replicate 16 (0 : Cplx)).set 0 1).set 5 1).set 10 1).set 15 (-1)

/-- `Gates::swap`: zeros, then entries 0, 6, 9, 15 set to one. -/
def Gates.swap : List Cplx :=
  ((((List.replicate 16 (0 : Cplx)).set 0 1).set 6 1).set 9 1).set 15 1

/-- `Gates::toffoli`: identity on the first six diagonal entries, then the
`|110⟩ ↔ |111⟩` flip. -/
def Gates.toffoli : List Cplx :=
  (((List.range 6).foldl (fun g i => g.set (i * 8 + i) 1) (List.replicate 64 (0 : Cplx))).set
    (6 * 8 + 7) 1).set (7 * 8 + 6) 1

/-- `Gates::controlled_phase(phi)`.  The Rust function consumes `phi : f64`
only through the pair `(phi.cos(), phi.sin())` stored at entry 15; the
embedding takes that pair `(cphi, sphi)` as the parameter.  At `phi = 0`
the pair is exactly `(1, 0)` (IEEE cos/sin are exact at zero). -/
def Gates.controlled_phase (cphi sphi : ℚ) : List Cplx :=
  ((((List.replicate 16 (0 : Cplx)).set 0 1).set 5 1).set 10 1).set 15 ⟨cphi, sphi⟩

/-! Verification-side matrix algebra over the flattened row-major layout
(used to state unitarity / self-inverseness, following the spec's
`U†U = I` wording). -/

/-- Product of two flattened row-major `d × d` matrices. -/
def matMul (d : Nat) (a b : List Cplx) : List Cplx :=
  (List.range (d * d)).map fun idx =>
    ((List.range d).map fun k => a.getD (idx / d * d + k) 0 * b.getD (k * d + idx % d) 0).sum

/-- Conjugate transpose of a flattened row-major `d × d` matrix. -/
def dagger (d : Nat) (a : List Cplx) : List Cplx :=
  (List.range (d * d)).map fun idx => Cplx.conj (a.getD (idx % d * d + idx / d) 0)

/-- The flattened row-major `d × d` identity matrix. -/
def idMat (d : Nat) : List Cplx :=
  (List.range (d * d)).map fun idx => if idx / d = idx % d then 1 else 0

/-! ## State vector engine (`src/quantum_state.rs`) -/

/-- `QuantumState`: the owning register — one amplitude vector plus its
qubit count (both fields are `pub` in the source). -/
structure QState where
  amplitudes : List Cplx
  num_qubits : Nat
deriving DecidableEq, Repr

/-- Well-formedness: the vector has the `2 ^ num_qubits` length that
`QuantumState::new` establishes. -/
def QState.wf (s : QState) : Prop := s.amplitudes.length = 2 ^ s.num_qubits

instance (s : QState) : Decidable s.wf := by
  unfold QState.wf
  infer_instance

/-- `QuantumState::new(num_qubits)`: `2 ^ n` zeros with `amplitudes[0] = 1`. -/
def QState.new (num_qubits : Nat) : QState :=
  ⟨(List.replicate (2 ^ num_qubits) (0 : Cplx)).set 0 1, num_qubits⟩

/-- Error/panic outcomes of an engine call.  `invalidQubitIndex` is the
error kind named by the specification; `indexOutOfBounds` models the Rust
panic raised by an out-of-range `DVector` index.  The source code contains
no validation, so the embedding of the source only ever produces
`indexOutOfBounds`. -/
inductive SimError where
  | invalidQubitIndex : SimError
  | indexOutOfBounds : SimError
deriving DecidableEq, Repr

/-- A checked `DVector` element access: Rust `v[i]` panics when `i` is out
of bounds. -/
def dvGet (v : List Cplx) (i : Nat) : Except SimError Cplx :=
  match v[i]? with
  | some a => .ok a
  | none => .error .indexOutOfBounds

/-- One iteration of the `apply_single_qubit_gate` loop at basis index `i`
(`v` is the pre-update snapshot `self.amplitudes`, `acc` the buffer
`new_amplitudes`, `tb` the `target_bit`): when bit `tb` of `i` is clear,
read `amp0 = v[i]`, `amp1 = v[i | tb]` and write
`g[0]*amp0 + g[1]*amp1` and `g[2]*amp0 + g[3]*amp1` back. -/
def sgStep (v g : List Cplx) (tb : Nat) (acc : List Cplx) (i : Nat) :
    Except SimError (List Cplx) :=
  if i &&& tb = 0 then do
    let amp0 ← dvGet v i
    let amp1 ← dvGet v (i ||| tb)
    pure ((acc.set i (g.getD 0 0 * amp0 + g.getD 1 0 * amp1)).set (i ||| tb)
      (g.getD 2 0 * amp0 + g.getD 3 0 * amp1))
  else
    pure acc

/-- `QuantumState::apply_single_qubit_gate(gate, qubit)`: clone the vector,
loop `i` over `0..2^n` updating each pair from the pre-update snapshot,
then store the new vector.  The flattened row-major 2×2 `gate` is a
`List Cplx` read at entries 0..3 (the Rust parameter is `&[Complex64; 4]`). -/
def applySingleQubitGate (g : List Cplx) (qubit : Nat) (s : QState) :
    Except SimError QState := do
  let amps ← (List.range (2 ^ s.num_qubits)).foldlM
    (sgStep s.amplitudes g (2 ^ qubit)) s.amplitudes
  pure ⟨amps, s.num_qubits⟩

/-- One iteration of the `apply_two_qubit_gate` loop at basis index `i`
(`cb`/`tb` are `control_bit`/`target_bit`): when both bits of `i` are
clear, gather the four snapshot amplitudes at
`i, i ^ tb, i ^ cb, i ^ cb ^ tb` and scatter the four rows of the
flattened 4×4 matrix back to those indices. -/
def tqStep (v g : List Cplx) (cb tb : Nat) (acc : List Cplx) (i : Nat) :
    Except SimError (List Cplx) :=
  if i &&& cb = 0 ∧ i &&& tb = 0 then do
    let amp00 ← dvGet v i
    let amp01 ← dvGet v (i ^^^ tb)
    let amp10 ← dvGet v (i ^^^ cb)
    let amp11 ← dvGet v (i ^^^ cb ^^^ tb)
    pure (((((acc.set i
      (g.getD 0 0 * amp00 + g.getD 1 0 * amp01 + g.getD 2 0 * amp10 + g.getD 3 0 * amp11)).set
      (i ^^^ tb)
      (g.getD 4 0 * amp00 + g.getD 5 0 * amp01 + g.getD 6 0 * amp10 + g.getD 7 0 * amp11)).set
      (i ^^^ cb)
      (g.getD 8 0 * amp00 + g.getD 9 0 * amp01 + g.getD 10 0 * amp10 + g.getD 11 0 * amp11)).set
      (i ^^^ cb ^^^ tb)
      (g.getD 12 0 * amp00 + g.getD 13 0 * amp01 + g.getD 14 0 * amp10 + g.getD 15 0 * amp11)))
  else
    pure acc

/-- `QuantumState::apply_two_qubit_gate(gate, control, target)`: clone the
vector, loop `i` over `0..2^n` updating each quadruple from the pre-update
snapshot, then store the new vector (`gate` is the flattened `&[Complex64; 16]`). -/
def applyTwoQubitGate (g : List Cplx) (control target : Nat) (s : QState) :
    Except SimError QState := do
  let amps ← (List.range (2 ^ s.num_qubits)).foldlM
    (tqStep s.amplitudes g (2 ^ control) (2 ^ target)) s.amplitudes
  pure ⟨amps, s.num_qubits⟩

/-- `QuantumState::get_probabilities`: pointwise `norm_sqr`. -/
def getProbabilities (s : QState) : List ℚ := s.amplitudes.map Cplx.normSq

/-- The `measure` cumulative-distribution loop:
`sum += prob; cumulative.push(sum)` in index order. -/
def cumsum : ℚ → List ℚ → List ℚ
  | _, [] => []
  | acc, p :: ps => (acc + p) :: cumsum (acc + p) ps

/-- `Iterator::position(pred)`: the index of the first element satisfying
the predicate, `none` when there is none. -/
def position (p : ℚ → Bool) : List ℚ → Option Nat
  | [] => none
  | x :: xs => if p x then some 0 else (position p xs).map (· + 1)

/-- The `measure` draw: `cumulative.iter().position(|&x| x > random).unwrap_or(0)` —
the first index whose cumulative value strictly exceeds `u`, falling back
to basis index 0 when none does. -/
def sampleIndex (cum : List ℚ) (u : ℚ) : Nat :=
  (position (fun x => decide (u < x)) cum).getD 0

/-- `format!("{:0width$b}", state, width = num_qubits)`: the binary digits
of `state` (at least one digit, so `0` prints as a single character),
left-padded with zeros to `width`. -/
def bitString (state width : Nat) : String :=
  ⟨List.replicate (width - (Nat.toDigits 2 state).length) '0' ++ Nat.toDigits 2 state⟩

/-- `*results.entry(k).or_insert(0) += 1` on the association-list model of
the `HashMap`. -/
def bump : List (String × Nat) → String → List (String × Nat)
  | [], k => [(k, 1)]
  | (k', c) :: rest, k =>
    if k' = k then (k', c + 1) :: rest else (k', c) :: bump rest k

/-- `QuantumState::measure(&self, shots)`: per-index probabilities, one
cumulative prefix-sum pass, then one sampled draw per shot, each recorded
under its zero-padded bitstring.  The `shots` uniform draws of
`rng.gen::<f64>()` (values in `[0,1)`) enter as the stream `draws`.
(The name is qualified as `QState.measure` because a bare `measure`
already exists in the Lean prelude.) -/
def QState.measure (s : QState) (draws : List ℚ) : List (String × Nat) :=
  let probabilities := s.amplitudes.map Cplx.normSq
  let cum := cumsum 0 probabilities
  draws.foldl
    (fun results u => bump results (bitString (sampleIndex cum u) s.num_qubits)) []

/-- A `measure` call as seen by the caller: `measure` borrows the register
immutably (`&self`), so the register handed back is the untouched input. -/
def measureCall (s : QState) (draws : List ℚ) : List (String × Nat) × QState :=
  (QState.measure s draws, s)

/-- `QuantumState::get_fidelity(&self, target_state)`: exactly `0` on
mismatched qubit counts, else `|Σ conj(self[i])·other[i]|²` over the
zipped vectors. -/
def getFidelity (s t : QState) : ℚ :=
  if s.num_qubits ≠ t.num_qubits then 0
  else Cplx.normSq (List.zipWith (fun a b => Cplx.conj a * b) s.amplitudes t.amplitudes).sum

instance {ε α : Type} [DecidableEq ε] [DecidableEq α] : DecidableEq (Except ε α) := fun x y =>
  match x, y with
  | .ok a, .ok b => if h : a = b then isTrue (by rw [h]) else isFalse (by simp [h])
  | .error e, .error f => if h : e = f then isTrue (by rw [h]) else isFalse (by simp [h])
  | .ok _, .error _ => isFalse (by simp)
  | .error _, .ok _ => isFalse (by simp)

/-- Row 0 of the `apply_two_qubit_gate` update: the value written to `i00`
(`amp00..amp11` are the snapshot amplitudes at `i`, `i ^ tb`, `i ^ cb`,
`i ^ cb ^ tb`). -/
def tqRow0 (g v : List Cplx) (cb tb i : Nat) : Cplx :=
  g.getD 0 0 * v.getD i 0 + g.getD 1 0 * v.getD (i ^^^ tb) 0 +
    g.getD 2 0 * v.getD (i ^^^ cb) 0 + g.getD 3 0 * v.getD (i ^^^ cb ^^^ tb) 0

/-- Row 1 of the `apply_two_qubit_gate` update: the value written to `i01`. -/
def tqRow1 (g v : List Cplx) (cb tb i : Nat) : Cplx :=
  g.getD 4 0 * v.getD i 0 + g.getD 5 0 * v.getD (i ^^^ tb) 0 +
    g.getD 6 0 * v.getD (i ^^^ cb) 0 + g.getD 7 0 * v.getD (i ^^^ cb ^^^ tb) 0

/-- Row 2 of the `apply_two_qubit_gate` update: the value written to `i10`. -/
def tqRow2 (g v : List Cplx) (cb tb i : Nat) : Cplx :=
  g.getD 8 0 * v.getD i 0 + g.getD 9 0 * v.getD (i ^^^ tb) 0 +
    g.getD 10 0 * v.getD (i ^^^ cb) 0 + g.getD 11 0 * v.getD (i ^^^ cb ^^^ tb) 0

/-- Row 3 of the `apply_two_qubit_gate` update: the value written to `i11`. -/
def tqRow3 (g v : List Cplx) (cb tb i : Nat) : Cplx :=
  g.getD 12 0 * v.getD i 0 + g.getD 13 0 * v.getD (i ^^^ tb) 0 +
    g.getD 14 0 * v.getD (i ^^^ cb) 0 + g.getD 15 0 * v.getD (i ^^^ cb ^^^ tb) 0

/-- `Gates::measurement_z(outcome)`: the non-unitary projector onto `|1⟩`
(`outcome = true`) or `|0⟩` (`outcome = false`). -/
def Gates.measurement_z (outcome : Bool) : List Cplx :=
  if outcome then [0, 0, 0, 1] else [1, 0, 0, 0]

/-! ## Theorems: scalar algebra, bit manipulation, loop invariants, claims -/

theorem Cplx.zero_re : (0 : Cplx).re = 0 := rfl

theorem Cplx.zero_im : (0 : Cplx).im = 0 := rfl

theorem Cplx.add_def (a b : Cplx) : a + b = ⟨a.re + b.re, a.im + b.im⟩ := rfl

theorem Cplx.mul_def (a b : Cplx) : a * b = ⟨a.re * b.re - a.im * b.im, a.re * b.im + a.im * b.re⟩ := rfl

/-- `conj a * a` is the real number `normSq a`. -/
theorem Cplx.conj_mul_self (a : Cplx) : Cplx.conj a * a = ⟨Cplx.normSq a, 0⟩ := by
  cases a with
  | mk re im =>
    simp only [Cplx.conj, Cplx.mul_def, Cplx.normSq, Cplx.mk.injEq]
    constructor <;> ring

/-- C9: the catalog matrices CNOT, CZ, SWAP and Toffoli are each unitary
(`U†U = I`) and self-inverse (`U·U = I`) under flattened row-major matrix
multiplication, and `controlled_phase(0)` — whose stored entry-15 pair is
`(cos 0, sin 0) = (1, 0)` exactly — equals the 4×4 identity matrix. -/
theorem catalog_gates_unitary_self_inverse :
    matMul 4 Gates.cnot Gates.cnot = idMat 4 ∧
    matMul 4 (dagger 4 Gates.cnot) Gates.cnot = idMat 4 ∧
    matMul 4 Gates.cz Gates.cz = idMat 4 ∧
    matMul 4 (dagger 4 Gates.cz) Gates.cz = idMat 4 ∧
    matMul 4 Gates.swap Gates.swap = idMat 4 ∧
    matMul 4 (dagger 4 Gates.swap) Gates.swap = idMat 4 ∧
    matMul 8 Gates.toffoli Gates.toffoli = idMat 8 ∧
    matMul 8 (dagger 8 Gates.toffoli) Gates.toffoli = idMat 8 ∧
    Gates.controlled_phase 1 0 = idMat 4 := by
  with_unfolding_all decide

theorem and_two_pow_eq_zero_iff (i q : Nat) : i &&& 2 ^ q = 0 ↔ i.testBit q = false := by
  rw [Nat.and_two_pow]
  rcases h : i.testBit q <;> simp [h, Nat.pow_eq_zero]

theorem or_two_pow_of_testBit_false {i q : Nat} (h : i.testBit q = false) :
    i ||| 2 ^ q = i ^^^ 2 ^ q := by
  apply Nat.eq_of_testBit_eq
  intro j
  rcases Decidable.em (j = q) with hj | hj
  · subst hj
    simp [Nat.testBit_or, Nat.testBit_xor, h, Nat.testBit_two_pow_self]
  · simp [Nat.testBit_or, Nat.testBit_xor, Nat.testBit_two_pow_of_ne (Ne.symm hj)]

theorem testBit_xor_two_pow_self (i q : Nat) : (i ^^^ 2 ^ q).testBit q = !i.testBit q := by
  simp [Nat.testBit_xor, Nat.testBit_two_pow_self]

theorem testBit_xor_two_pow_of_ne {q j : Nat} (i : Nat) (h : j ≠ q) :
    (i ^^^ 2 ^ q).testBit j = i.testBit j := by
  simp [Nat.testBit_xor, Nat.testBit_two_pow_of_ne (Ne.symm h)]

theorem xor_two_pow_cancel (i q : Nat) : i ^^^ 2 ^ q ^^^ 2 ^ q = i := by
  rw [Nat.xor_assoc, Nat.xor_self, Nat.xor_zero]

theorem xor_two_pow_lt {i n : Nat} (q : Nat) (hq : q < n) (hi : i < 2 ^ n) :
    i ^^^ 2 ^ q < 2 ^ n :=
  Nat.xor_lt_two_pow hi (Nat.pow_lt_pow_right (by norm_num) hq)

theorem ne_of_testBit_ne (q : Nat) {a b : Nat} (h : a.testBit q ≠ b.testBit q) : a ≠ b := by
  intro hab
  exact h (by rw [hab])

theorem except_foldlM_range_succ {ε β : Type} (f : β → Nat → Except ε β) (b : β) (k : Nat) :
    (List.range (k + 1)).foldlM f b =
      (List.range k).foldlM f b >>= fun b₂ => f b₂ k := by
  rw [List.range_succ, List.foldlM_append]
  simp only [List.foldlM_cons, List.foldlM_nil, bind_pure]

theorem getElem?_eq_some_getD {v : List Cplx} {i : Nat} (h : i < v.length) :
    v[i]? = some (v.getD i 0) := by
  rw [List.getElem?_eq_getElem h, List.getD_eq_getElem?_getD, List.getElem?_eq_getElem h]
  rfl

theorem dvGet_ok {v : List Cplx} {i : Nat} (h : i < v.length) :
    dvGet v i = .ok (v.getD i 0) := by
  rw [dvGet, getElem?_eq_some_getD h]

theorem dvGet_err {v : List Cplx} {i : Nat} (h : v.length ≤ i) :
    dvGet v i = .error .indexOutOfBounds := by
  rw [dvGet, List.getElem?_eq_none h]

/-- Invariant of the `apply_single_qubit_gate` loop after the first `k`
iterations: the loop has not panicked, and every slot whose pair has
already been visited holds its final value while every other slot still
holds its cloned pre-update value. -/
theorem sg_fold_spec (v g : List Cplx) (n q : Nat) (hq : q < n) (hv : v.length = 2 ^ n) :
    ∀ k, k ≤ 2 ^ n →
      ∃ A, (List.range k).foldlM (sgStep v g (2 ^ q)) v = .ok A ∧
        A.length = 2 ^ n ∧
        ∀ j : Nat,
          (j.testBit q = false →
            A[j]? = if j < k then
              some (g.getD 0 0 * v.getD j 0 + g.getD 1 0 * v.getD (j ^^^ 2 ^ q) 0)
            else v[j]?) ∧
          (j.testBit q = true →
            A[j]? = if j ^^^ 2 ^ q < k then
              some (g.getD 2 0 * v.getD (j ^^^ 2 ^ q) 0 + g.getD 3 0 * v.getD j 0)
            else v[j]?) := by
  intro k
  induction k with
  | zero =>
    intro _
    refine ⟨v, rfl, hv, fun j => ⟨fun _ => by simp, fun _ => by simp⟩⟩
  | succ k ih =>
    intro hk1
    obtain ⟨A, hA, hlen, hchar⟩ := ih (Nat.le_of_succ_le hk1)
    have hk2n : k < 2 ^ n := hk1
    rw [except_foldlM_range_succ, hA]
    show ∃ A₂, sgStep v g (2 ^ q) A k = .ok A₂ ∧ _
    rcases hbk : k.testBit q with hfalse | htrue
    · -- bit q of k is clear: the pair (k, k ^^^ 2^q) is written this iteration
      have hand : k &&& 2 ^ q = 0 := (and_two_pow_eq_zero_iff k q).mpr hbk
      have hxk : k ^^^ 2 ^ q < 2 ^ n := xor_two_pow_lt q hq hk2n
      have hor : k ||| 2 ^ q = k ^^^ 2 ^ q := or_two_pow_of_testBit_false hbk
      have hbxk : (k ^^^ 2 ^ q).testBit q = true := by
        simp [testBit_xor_two_pow_self, hbk]
      have hxkk : k ^^^ 2 ^ q ≠ k := ne_of_testBit_ne q (by simp [hbxk, hbk])
      rw [sgStep, if_pos hand, hor, dvGet_ok (hv ▸ hk2n), dvGet_ok (hv ▸ hxk)]
      refine ⟨_, rfl, by simp [List.length_set, hlen], fun j => ⟨?_, ?_⟩⟩
      · intro hbj
        rcases Decidable.em (j = k) with hjk | hjk
        · subst hjk
          rw [List.getElem?_set, if_neg hxkk, List.getElem?_set, if_pos rfl,
            if_pos (hlen ▸ hk2n), if_pos (Nat.lt_succ_self j)]
        · have hjxk : j ≠ k ^^^ 2 ^ q := ne_of_testBit_ne q (by simp [hbj, hbxk])
          rw [List.getElem?_set, if_neg (Ne.symm hjxk), List.getElem?_set,
            if_neg (Ne.symm hjk), (hchar j).1 hbj]
          rcases Decidable.em (j < k) with hlt | hlt
          · rw [if_pos hlt, if_pos (by omega)]
          · rw [if_neg hlt, if_neg (by omega)]
      · intro hbj
        rcases Decidable.em (j = k ^^^ 2 ^ q) with hjx | hjx
        · subst hjx
          rw [List.getElem?_set, if_pos rfl, if_pos (by simp [List.length_set, hlen, hxk]),
            xor_two_pow_cancel, if_pos (Nat.lt_succ_self k)]
        · have hjk : j ≠ k := ne_of_testBit_ne q (by simp [hbj, hbk])
          have hjxk2 : j ^^^ 2 ^ q ≠ k := by
            intro h
            exact hjx (by rw [← h, xor_two_pow_cancel])
          rw [List.getElem?_set, if_neg (Ne.symm hjx), List.getElem?_set,
            if_neg (Ne.symm hjk), (hchar j).2 hbj]
          rcases Decidable.em (j ^^^ 2 ^ q < k) with hlt | hlt
          · rw [if_pos hlt, if_pos (by omega)]
          · rw [if_neg hlt, if_neg (by omega)]
    · -- bit q of k is set: the loop body skips this iteration
      have hand : ¬(k &&& 2 ^ q = 0) := by
        rw [and_two_pow_eq_zero_iff]
        simp [hbk]
      rw [sgStep, if_neg hand]
      refine ⟨A, rfl, hlen, fun j => ⟨?_, ?_⟩⟩
      · intro hbj
        have hjk : j ≠ k := ne_of_testBit_ne q (by simp [hbj, hbk])
        rw [(hchar j).1 hbj]
        rcases Decidable.em (j < k) with hlt | hlt
        · rw [if_pos hlt, if_pos (by omega)]
        · rw [if_neg hlt, if_neg (by omega)]
      · intro hbj
        have hjxk : j ^^^ 2 ^ q ≠ k := ne_of_testBit_ne q (by simp [testBit_xor_two_pow_self, hbj, hbk])
        rw [(hchar j).2 hbj]
        rcases Decidable.em (j ^^^ 2 ^ q < k) with hlt | hlt
        · rw [if_pos hlt, if_pos (by omega)]
        · rw [if_neg hlt, if_neg (by omega)]

theorem except_ok_bind {ε α β : Type} (a : α) (f : α → Except ε β) :
    (Except.ok a : Except ε α) >>= f = f a := rfl

theorem except_error_bind {ε α β : Type} (e : ε) (f : α → Except ε β) :
    (Except.error e : Except ε α) >>= f = .error e := rfl

/-- C3: on a well-formed register, for every flattened row-major 2×2 gate
and every in-range qubit `q`, `apply_single_qubit_gate` succeeds and
returns the vector in which, for every basis index `i` with bit `q` clear
(`i0 = i`, `i1 = i | 2^q`), `new[i0] = g00·old[i0] + g01·old[i1]` and
`new[i1] = g10·old[i0] + g11·old[i1]`, every pair taken from the single
pre-update snapshot `old = s.amplitudes` (the right-hand sides read only
the input vector). -/
theorem applySingleQubitGate_valid (g : List Cplx) (q : Nat) (s : QState)
    (hwf : s.wf) (hq : q < s.num_qubits) :
    ∃ A, applySingleQubitGate g q s = .ok ⟨A, s.num_qubits⟩ ∧
      A.length = 2 ^ s.num_qubits ∧
      ∀ i < 2 ^ s.num_qubits, i &&& 2 ^ q = 0 →
        A[i]? = some (g.getD 0 0 * s.amplitudes.getD i 0 +
          g.getD 1 0 * s.amplitudes.getD (i ||| 2 ^ q) 0) ∧
        A[i ||| 2 ^ q]? = some (g.getD 2 0 * s.amplitudes.getD i 0 +
          g.getD 3 0 * s.amplitudes.getD (i ||| 2 ^ q) 0) := by
  obtain ⟨A, hA, hlen, hchar⟩ :=
    sg_fold_spec s.amplitudes g s.num_qubits q hq hwf (2 ^ s.num_qubits) le_rfl
  refine ⟨A, ?_, hlen, ?_⟩
  · simp only [applySingleQubitGate, hA]
    rfl
  · intro i hi hand
    have hbi : i.testBit q = false := (and_two_pow_eq_zero_iff i q).mp hand
    have hor : i ||| 2 ^ q = i ^^^ 2 ^ q := or_two_pow_of_testBit_false hbi
    have hbx : (i ^^^ 2 ^ q).testBit q = true := by
      simp [testBit_xor_two_pow_self, hbi]
    constructor
    · rw [(hchar i).1 hbi, if_pos hi, hor]
    · rw [hor, (hchar (i ^^^ 2 ^ q)).2 hbx, xor_two_pow_cancel, if_pos hi]

/-- C3 witness: Pauli-X on qubit 0 of the 1-qubit register. -/
theorem applySingleQubitGate_valid_witness :
    ∃ A, applySingleQubitGate Gates.pauli_x 0 (QState.new 1) = .ok ⟨A, (QState.new 1).num_qubits⟩ ∧
      A.length = 2 ^ (QState.new 1).num_qubits ∧
      ∀ i < 2 ^ (QState.new 1).num_qubits, i &&& 2 ^ 0 = 0 →
        A[i]? = some (Gates.pauli_x.getD 0 0 * (QState.new 1).amplitudes.getD i 0 +
          Gates.pauli_x.getD 1 0 * (QState.new 1).amplitudes.getD (i ||| 2 ^ 0) 0) ∧
        A[i ||| 2 ^ 0]? = some (Gates.pauli_x.getD 2 0 * (QState.new 1).amplitudes.getD i 0 +
          Gates.pauli_x.getD 3 0 * (QState.new 1).amplitudes.getD (i ||| 2 ^ 0) 0) :=
  applySingleQubitGate_valid Gates.pauli_x 0 (QState.new 1)
    (by with_unfolding_all decide) (by decide)

/-- C1 (amended): `apply_single_qubit_gate` performs no qubit-index
validation; on a well-formed register, a call with `qubit ≥ n` fails by
panicking on the out-of-bounds amplitude access `v[i | (1 << qubit)]`
during the first loop iteration — not with a structured
`InvalidQubitIndex` error (the method's return type carries no error at
all).  Because the panic strikes before `self.amplitudes` is reassigned,
the amplitude vector is left unchanged, which the error result models: no
new state is produced. -/
theorem applySingleQubitGate_invalid_qubit_panics (g : List Cplx) (q : Nat) (s : QState)
    (hwf : s.wf) (hq : s.num_qubits ≤ q) :
    applySingleQubitGate g q s = .error .indexOutOfBounds := by
  have hpos : 0 < 2 ^ s.num_qubits := Nat.pos_pow_of_pos _ (by norm_num)
  have hlen1 : 0 < s.amplitudes.length := hwf ▸ hpos
  have hge : s.amplitudes.length ≤ 2 ^ q := by
    rw [hwf]
    exact Nat.pow_le_pow_right (by norm_num) hq
  have hstep : sgStep s.amplitudes g (2 ^ q) s.amplitudes 0 = .error .indexOutOfBounds := by
    rw [sgStep, if_pos (Nat.zero_and _), dvGet_ok hlen1, except_ok_bind, Nat.zero_or,
      dvGet_err hge, except_error_bind]
  obtain ⟨m, hm⟩ : ∃ m, 2 ^ s.num_qubits = m + 1 := ⟨2 ^ s.num_qubits - 1, by omega⟩
  simp only [applySingleQubitGate]
  rw [hm, List.range_succ_eq_map, List.foldlM_cons, hstep, except_error_bind,
    except_error_bind]

/-- C1 witness (for the amended claim): Pauli-X on qubit 1 of the 1-qubit
register panics with the out-of-bounds access. -/
theorem applySingleQubitGate_invalid_qubit_panics_witness :
    applySingleQubitGate Gates.pauli_x 1 (QState.new 1) = .error .indexOutOfBounds :=
  applySingleQubitGate_invalid_qubit_panics Gates.pauli_x 1 (QState.new 1)
    (by with_unfolding_all decide) (by decide)

/-- C1 counterexample to the claim as stated: on the 1-qubit register,
`apply_single_qubit_gate(pauli_x, 1)` does *not* fail with
`InvalidQubitIndex` — it fails with the out-of-bounds panic. -/
theorem applySingleQubitGate_invalidQubitIndex_counterexample :
    applySingleQubitGate Gates.pauli_x 1 (QState.new 1) ≠ .error .invalidQubitIndex ∧
    applySingleQubitGate Gates.pauli_x 1 (QState.new 1) = .error .indexOutOfBounds := by
  with_unfolding_all decide

theorem xor_cancel_right (x a : Nat) : x ^^^ a ^^^ a = x := by
  rw [Nat.xor_assoc, Nat.xor_self, Nat.xor_zero]

theorem xor_right_comm (x y z : Nat) : x ^^^ y ^^^ z = x ^^^ z ^^^ y := by
  rw [Nat.xor_assoc, Nat.xor_comm y z, ← Nat.xor_assoc]

theorem if_lt_congr_succ {α : Type} {b k : Nat} (h : b ≠ k) (x y : α) :
    (if b < k then x else y) = if b < k + 1 then x else y := by
  rcases Decidable.em (b < k) with hlt | hlt
  · rw [if_pos hlt, if_pos (by omega)]
  · rw [if_neg hlt, if_neg (by omega)]

theorem getElem?_set4_w3 {A : List Cplx} (w0 w1 w2 : Nat) {w3 : Nat} (a0 a1 a2 a3 : Cplx)
    (h : w3 < A.length) :
    ((((A.set w0 a0).set w1 a1).set w2 a2).set w3 a3)[w3]? = some a3 := by
  rw [List.getElem?_set, if_pos rfl, if_pos (by simpa using h)]

theorem getElem?_set4_w2 {A : List Cplx} (w0 w1 : Nat) {w2 w3 : Nat} (a0 a1 a2 a3 : Cplx)
    (h32 : w3 ≠ w2) (h : w2 < A.length) :
    ((((A.set w0 a0).set w1 a1).set w2 a2).set w3 a3)[w2]? = some a2 := by
  rw [List.getElem?_set, if_neg h32, List.getElem?_set, if_pos rfl, if_pos (by simpa using h)]

theorem getElem?_set4_w1 {A : List Cplx} (w0 : Nat) {w1 w2 w3 : Nat} (a0 a1 a2 a3 : Cplx)
    (h31 : w3 ≠ w1) (h21 : w2 ≠ w1) (h : w1 < A.length) :
    ((((A.set w0 a0).set w1 a1).set w2 a2).set w3 a3)[w1]? = some a1 := by
  rw [List.getElem?_set, if_neg h31, List.getElem?_set, if_neg h21, List.getElem?_set,
    if_pos rfl, if_pos (by simpa using h)]

theorem getElem?_set4_w0 {A : List Cplx} {w0 w1 w2 w3 : Nat} (a0 a1 a2 a3 : Cplx)
    (h30 : w3 ≠ w0) (h20 : w2 ≠ w0) (h10 : w1 ≠ w0) (h : w0 < A.length) :
    ((((A.set w0 a0).set w1 a1).set w2 a2).set w3 a3)[w0]? = some a0 := by
  rw [List.getElem?_set, if_neg h30, List.getElem?_set, if_neg h20, List.getElem?_set,
    if_neg h10, List.getElem?_set, if_pos rfl, if_pos h]

theorem getElem?_set4_other {A : List Cplx} {w0 w1 w2 w3 j : Nat} (a0 a1 a2 a3 : Cplx)
    (h3 : w3 ≠ j) (h2 : w2 ≠ j) (h1 : w1 ≠ j) (h0 : w0 ≠ j) :
    ((((A.set w0 a0).set w1 a1).set w2 a2).set w3 a3)[j]? = A[j]? := by
  rw [List.getElem?_set, if_neg h3, List.getElem?_set, if_neg h2, List.getElem?_set,
    if_neg h1, List.getElem?_set, if_neg h0]

theorem ne_of_bits_clear_of_some_set {b k c t : Nat} (hbc : b.testBit c = false)
    (hbt : b.testBit t = false) (hk : k.testBit c = true ∨ k.testBit t = true) : b ≠ k := by
  rcases hk with h | h
  · exact ne_of_testBit_ne c (by simp [hbc, h])
  · exact ne_of_testBit_ne t (by simp [hbt, h])

/-- Invariant of the `apply_two_qubit_gate` loop after the first `k`
iterations (valid distinct in-range `control`/`target`): the loop has not
panicked, and each slot of the quadruple based at `i < k` holds its final
gathered-multiplied-scattered value while every other slot still holds
its cloned pre-update value. -/
theorem tq_fold_spec (v g : List Cplx) (n c t : Nat) (hc : c < n) (ht : t < n)
    (hct : c ≠ t) (hv : v.length = 2 ^ n) :
    ∀ k, k ≤ 2 ^ n →
      ∃ A, (List.range k).foldlM (tqStep v g (2 ^ c) (2 ^ t)) v = .ok A ∧
        A.length = 2 ^ n ∧
        ∀ j : Nat,
          (j.testBit c = false → j.testBit t = false →
            A[j]? = if j < k then some (tqRow0 g v (2 ^ c) (2 ^ t) j) else v[j]?) ∧
          (j.testBit c = false → j.testBit t = true →
            A[j]? = if j ^^^ 2 ^ t < k then some (tqRow1 g v (2 ^ c) (2 ^ t) (j ^^^ 2 ^ t))
              else v[j]?) ∧
          (j.testBit c = true → j.testBit t = false →
            A[j]? = if j ^^^ 2 ^ c < k then some (tqRow2 g v (2 ^ c) (2 ^ t) (j ^^^ 2 ^ c))
              else v[j]?) ∧
          (j.testBit c = true → j.testBit t = true →
            A[j]? = if j ^^^ 2 ^ c ^^^ 2 ^ t < k then
              some (tqRow3 g v (2 ^ c) (2 ^ t) (j ^^^ 2 ^ c ^^^ 2 ^ t)) else v[j]?) := by
  have htc : t ≠ c := Ne.symm hct
  intro k
  induction k with
  | zero =>
    intro _
    exact ⟨v, rfl, hv, fun j =>
      ⟨fun _ _ => by simp, fun _ _ => by simp, fun _ _ => by simp, fun _ _ => by simp⟩⟩
  | succ k ih =>
    intro hk1
    obtain ⟨A, hA, hlen, hchar⟩ := ih (Nat.le_of_succ_le hk1)
    have hk2n : k < 2 ^ n := hk1
    rw [except_foldlM_range_succ, hA, except_ok_bind]
    rcases Decidable.em (k &&& 2 ^ c = 0 ∧ k &&& 2 ^ t = 0) with hcond | hcond
    · -- both bits of k clear: the quadruple based at k is written
      have hbkc : k.testBit c = false := (and_two_pow_eq_zero_iff k c).mp hcond.1
      have hbkt : k.testBit t = false := (and_two_pow_eq_zero_iff k t).mp hcond.2
      have hw1 : k ^^^ 2 ^ t < 2 ^ n := xor_two_pow_lt t ht hk2n
      have hw2 : k ^^^ 2 ^ c < 2 ^ n := xor_two_pow_lt c hc hk2n
      have hw3 : k ^^^ 2 ^ c ^^^ 2 ^ t < 2 ^ n := xor_two_pow_lt t ht hw2
      have hb1c : (k ^^^ 2 ^ t).testBit c = false := by
        simp [testBit_xor_two_pow_of_ne _ hct, hbkc]
      have hb1t : (k ^^^ 2 ^ t).testBit t = true := by
        simp [testBit_xor_two_pow_self, hbkt]
      have hb2c : (k ^^^ 2 ^ c).testBit c = true := by
        simp [testBit_xor_two_pow_self, hbkc]
      have hb2t : (k ^^^ 2 ^ c).testBit t = false := by
        simp [testBit_xor_two_pow_of_ne _ htc, hbkt]
      have hb3c : (k ^^^ 2 ^ c ^^^ 2 ^ t).testBit c = true := by
        simp [testBit_xor_two_pow_of_ne _ hct, testBit_xor_two_pow_self, hbkc]
      have hb3t : (k ^^^ 2 ^ c ^^^ 2 ^ t).testBit t = true := by
        simp [testBit_xor_two_pow_self, testBit_xor_two_pow_of_ne _ htc,
          Nat.testBit_two_pow_of_ne hct, hbkt]
      rw [tqStep, if_pos hcond, dvGet_ok (hv ▸ hk2n), except_ok_bind,
        dvGet_ok (hv ▸ hw1), except_ok_bind, dvGet_ok (hv ▸ hw2), except_ok_bind,
        dvGet_ok (hv ▸ hw3), except_ok_bind]
      refine ⟨_, rfl, by simp [List.length_set, hlen], fun j => ⟨?_, ?_, ?_, ?_⟩⟩
      · -- class (0,0)
        intro hbjc hbjt
        rcases Decidable.em (j = k) with hjk | hjk
        · subst hjk
          rw [getElem?_set4_w0 _ _ _ _ (ne_of_testBit_ne c (by simp [hb3c, hbjc]))
            (ne_of_testBit_ne c (by simp [hb2c, hbjc]))
            (ne_of_testBit_ne t (by simp [hb1t, hbjt])) (hlen ▸ hk2n),
            if_pos (Nat.lt_succ_self j), tqRow0]
        · rw [getElem?_set4_other _ _ _ _ (ne_of_testBit_ne c (by simp [hb3c, hbjc]))
            (ne_of_testBit_ne c (by simp [hb2c, hbjc]))
            (ne_of_testBit_ne t (by simp [hb1t, hbjt])) (Ne.symm hjk),
            (hchar j).1 hbjc hbjt]
          exact if_lt_congr_succ hjk _ _
      · -- class (0,1)
        intro hbjc hbjt
        rcases Decidable.em (j = k ^^^ 2 ^ t) with hjk | hjk
        · subst hjk
          rw [getElem?_set4_w1 _ _ _ _ _ (ne_of_testBit_ne c (by simp [hb3c, hb1c]))
            (ne_of_testBit_ne c (by simp [hb2c, hb1c])) (hlen ▸ hw1),
            xor_cancel_right, if_pos (Nat.lt_succ_self k), tqRow1]
        · have hne2 : j ^^^ 2 ^ t ≠ k := by
            intro h
            exact hjk (by rw [← h, xor_cancel_right])
          rw [getElem?_set4_other _ _ _ _ (ne_of_testBit_ne c (by simp [hb3c, hbjc]))
            (ne_of_testBit_ne c (by simp [hb2c, hbjc])) (Ne.symm hjk)
            (ne_of_testBit_ne t (by simp [hbkt, hbjt])),
            (hchar j).2.1 hbjc hbjt]
          exact if_lt_congr_succ hne2 _ _
      · -- class (1,0)
        intro hbjc hbjt
        rcases Decidable.em (j = k ^^^ 2 ^ c) with hjk | hjk
        · subst hjk
          rw [getElem?_set4_w2 _ _ _ _ _ _ (ne_of_testBit_ne t (by simp [hb3t, hb2t]))
            (hlen ▸ hw2), xor_cancel_right, if_pos (Nat.lt_succ_self k), tqRow2]
        · have hne2 : j ^^^ 2 ^ c ≠ k := by
            intro h
            exact hjk (by rw [← h, xor_cancel_right])
          rw [getElem?_set4_other _ _ _ _ (ne_of_testBit_ne t (by simp [hb3t, hbjt]))
            (Ne.symm hjk) (ne_of_testBit_ne c (by simp [hb1c, hbjc]))
            (ne_of_testBit_ne c (by simp [hbkc, hbjc])),
            (hchar j).2.2.1 hbjc hbjt]
          exact if_lt_congr_succ hne2 _ _
      · -- class (1,1)
        intro hbjc hbjt
        rcases Decidable.em (j = k ^^^ 2 ^ c ^^^ 2 ^ t) with hjk | hjk
        · subst hjk
          rw [getElem?_set4_w3 _ _ _ _ _ _ _ (hlen ▸ hw3),
            xor_right_comm (k ^^^ 2 ^ c ^^^ 2 ^ t) (2 ^ c) (2 ^ t)]
          rw [xor_cancel_right, xor_right_comm k (2 ^ c) (2 ^ t), xor_cancel_right,
            xor_right_comm k (2 ^ t) (2 ^ c)]
          rw [if_pos (Nat.lt_succ_self k), tqRow3]
        · have hne2 : j ^^^ 2 ^ c ^^^ 2 ^ t ≠ k := by
            intro h
            apply hjk
            have h2 := congrArg (fun x => x ^^^ 2 ^ t ^^^ 2 ^ c) h
            simp only at h2
            rw [xor_right_comm (j ^^^ 2 ^ c ^^^ 2 ^ t) (2 ^ t) (2 ^ c)] at h2
            rw [xor_right_comm (j ^^^ 2 ^ c) (2 ^ t) (2 ^ c), xor_cancel_right] at h2
            rw [xor_cancel_right] at h2
            rw [h2, xor_right_comm k (2 ^ t) (2 ^ c)]
          rw [getElem?_set4_other _ _ _ _ (Ne.symm hjk)
            (ne_of_testBit_ne t (by simp [hb2t, hbjt]))
            (ne_of_testBit_ne c (by simp [hb1c, hbjc]))
            (ne_of_testBit_ne c (by simp [hbkc, hbjc])),
            (hchar j).2.2.2 hbjc hbjt]
          exact if_lt_congr_succ hne2 _ _
    · -- some bit of k is set: the loop body skips this iteration
      have hsome : k.testBit c = true ∨ k.testBit t = true := by
        cases hx : k.testBit c with
        | true => exact Or.inl rfl
        | false =>
          cases hy : k.testBit t with
          | true => exact Or.inr rfl
          | false =>
            exact absurd ⟨(and_two_pow_eq_zero_iff k c).mpr hx,
              (and_two_pow_eq_zero_iff k t).mpr hy⟩ hcond
      rw [tqStep, if_neg hcond]
      refine ⟨A, rfl, hlen, fun j => ⟨?_, ?_, ?_, ?_⟩⟩
      · intro hbjc hbjt
        rw [(hchar j).1 hbjc hbjt]
        exact if_lt_congr_succ (ne_of_bits_clear_of_some_set hbjc hbjt hsome) _ _
      · intro hbjc hbjt
        rw [(hchar j).2.1 hbjc hbjt]
        refine if_lt_congr_succ (ne_of_bits_clear_of_some_set ?_ ?_ hsome) _ _
        · simp [testBit_xor_two_pow_of_ne _ hct, hbjc]
        · simp [testBit_xor_two_pow_self, hbjt]
      · intro hbjc hbjt
        rw [(hchar j).2.2.1 hbjc hbjt]
        refine if_lt_congr_succ (ne_of_bits_clear_of_some_set ?_ ?_ hsome) _ _
        · simp [testBit_xor_two_pow_self, hbjc]
        · simp [testBit_xor_two_pow_of_ne _ htc, hbjt]
      · intro hbjc hbjt
        rw [(hchar j).2.2.2 hbjc hbjt]
        refine if_lt_congr_succ (ne_of_bits_clear_of_some_set ?_ ?_ hsome) _ _
        · simp [testBit_xor_two_pow_of_ne _ hct, testBit_xor_two_pow_self, hbjc]
        · simp [testBit_xor_two_pow_self, testBit_xor_two_pow_of_ne _ htc,
            Nat.testBit_two_pow_of_ne hct, hbjt]

/-- C4: on a well-formed register, for every flattened 4×4 gate and every
valid pair `control ≠ target` (both `< n`), `apply_two_qubit_gate`
succeeds and returns the vector in which, for every basis index `i` with
both the control bit and the target bit clear, the four pre-update
amplitudes at `{i, i ^ target_bit, i ^ control_bit,
i ^ control_bit ^ target_bit}` are gathered, multiplied by the flattened
4×4 matrix with row/column index `control_bit·2 + target_bit`
(`tqRow0..tqRow3` are exactly its four row combinations over the
snapshot), and the four results scattered back to those indices. -/
theorem applyTwoQubitGate_valid (g : List Cplx) (control target : Nat) (s : QState)
    (hwf : s.wf) (hc : control < s.num_qubits) (ht : target < s.num_qubits)
    (hne : control ≠ target) :
    ∃ A, applyTwoQubitGate g control target s = .ok ⟨A, s.num_qubits⟩ ∧
      A.length = 2 ^ s.num_qubits ∧
      ∀ i < 2 ^ s.num_qubits, i &&& 2 ^ control = 0 → i &&& 2 ^ target = 0 →
        A[i]? = some (tqRow0 g s.amplitudes (2 ^ control) (2 ^ target) i) ∧
        A[i ^^^ 2 ^ target]? = some (tqRow1 g s.amplitudes (2 ^ control) (2 ^ target) i) ∧
        A[i ^^^ 2 ^ control]? = some (tqRow2 g s.amplitudes (2 ^ control) (2 ^ target) i) ∧
        A[i ^^^ 2 ^ control ^^^ 2 ^ target]? =
          some (tqRow3 g s.amplitudes (2 ^ control) (2 ^ target) i) := by
  have htc : target ≠ control := Ne.symm hne
  obtain ⟨A, hA, hlen, hchar⟩ := tq_fold_spec s.amplitudes g s.num_qubits control target
    hc ht hne hwf (2 ^ s.num_qubits) le_rfl
  refine ⟨A, ?_, hlen, ?_⟩
  · simp only [applyTwoQubitGate, hA]
    rfl
  · intro i hi handc handt
    have hbic : i.testBit control = false := (and_two_pow_eq_zero_iff i control).mp handc
    have hbit : i.testBit target = false := (and_two_pow_eq_zero_iff i target).mp handt
    have h1c : (i ^^^ 2 ^ target).testBit control = false := by
      simp [testBit_xor_two_pow_of_ne _ hne, hbic]
    have h1t : (i ^^^ 2 ^ target).testBit target = true := by
      simp [testBit_xor_two_pow_self, hbit]
    have h2c : (i ^^^ 2 ^ control).testBit control = true := by
      simp [testBit_xor_two_pow_self, hbic]
    have h2t : (i ^^^ 2 ^ control).testBit target = false := by
      simp [testBit_xor_two_pow_of_ne _ htc, hbit]
    have h3c : (i ^^^ 2 ^ control ^^^ 2 ^ target).testBit control = true := by
      simp [testBit_xor_two_pow_of_ne _ hne, testBit_xor_two_pow_self, hbic]
    have h3t : (i ^^^ 2 ^ control ^^^ 2 ^ target).testBit target = true := by
      simp [testBit_xor_two_pow_self, testBit_xor_two_pow_of_ne _ htc,
        Nat.testBit_two_pow_of_ne hne, hbit]
    refine ⟨?_, ?_, ?_, ?_⟩
    · rw [(hchar i).1 hbic hbit, if_pos hi]
    · rw [(hchar (i ^^^ 2 ^ target)).2.1 h1c h1t, xor_cancel_right, if_pos hi]
    · rw [(hchar (i ^^^ 2 ^ control)).2.2.1 h2c h2t, xor_cancel_right, if_pos hi]
    · rw [(hchar (i ^^^ 2 ^ control ^^^ 2 ^ target)).2.2.2 h3c h3t,
        xor_right_comm (i ^^^ 2 ^ control ^^^ 2 ^ target) (2 ^ control) (2 ^ target),
        xor_cancel_right (i ^^^ 2 ^ control) (2 ^ target), xor_cancel_right i (2 ^ control),
        if_pos hi]

/-- C4 witness: CNOT with control 0, target 1 on the 2-qubit register. -/
theorem applyTwoQubitGate_valid_witness :
    ∃ A, applyTwoQubitGate Gates.cnot 0 1 (QState.new 2) = .ok ⟨A, (QState.new 2).num_qubits⟩ ∧
      A.length = 2 ^ (QState.new 2).num_qubits ∧
      ∀ i < 2 ^ (QState.new 2).num_qubits, i &&& 2 ^ 0 = 0 → i &&& 2 ^ 1 = 0 →
        A[i]? = some (tqRow0 Gates.cnot (QState.new 2).amplitudes (2 ^ 0) (2 ^ 1) i) ∧
        A[i ^^^ 2 ^ 1]? = some (tqRow1 Gates.cnot (QState.new 2).amplitudes (2 ^ 0) (2 ^ 1) i) ∧
        A[i ^^^ 2 ^ 0]? = some (tqRow2 Gates.cnot (QState.new 2).amplitudes (2 ^ 0) (2 ^ 1) i) ∧
        A[i ^^^ 2 ^ 0 ^^^ 2 ^ 1]? =
          some (tqRow3 Gates.cnot (QState.new 2).amplitudes (2 ^ 0) (2 ^ 1) i) :=
  applyTwoQubitGate_valid Gates.cnot 0 1 (QState.new 2)
    (by with_unfolding_all decide) (by decide) (by decide) (by decide)

/-- C2 (amended): `apply_two_qubit_gate` performs no validation.  On a
well-formed register, a call with `control ≥ n` or `target ≥ n` fails by
panicking on an out-of-bounds amplitude access in the first loop
iteration — not with a structured `InvalidQubitIndex` error — and the
panic strikes before `self.amplitudes` is reassigned, so the vector is
unchanged (the error result carries no new state).  A call with
`control = target < n`, however, is not rejected at all: it completes
normally and can mutate the vector (witnessed by the CNOT matrix with
`control = target = 0` on the 1-qubit `|0⟩` register, which turns the
vector `[1, 0]` into `[0, 1]`). -/
theorem applyTwoQubitGate_no_validation :
    (∀ (g : List Cplx) (control target : Nat) (s : QState), s.wf →
      s.num_qubits ≤ control ∨ s.num_qubits ≤ target →
      applyTwoQubitGate g control target s = .error .indexOutOfBounds) ∧
    applyTwoQubitGate Gates.cnot 0 0 (QState.new 1) = .ok ⟨[⟨0, 0⟩, ⟨1, 0⟩], 1⟩ ∧
    (⟨[⟨0, 0⟩, ⟨1, 0⟩], 1⟩ : QState) ≠ QState.new 1 := by
  refine ⟨?_, by with_unfolding_all decide, by with_unfolding_all decide⟩
  intro g control target s hwf h
  have hpos : 0 < 2 ^ s.num_qubits := Nat.pos_pow_of_pos _ (by norm_num)
  have hlen0 : 0 < s.amplitudes.length := hwf ▸ hpos
  have hstep : tqStep s.amplitudes g (2 ^ control) (2 ^ target) s.amplitudes 0 =
      .error .indexOutOfBounds := by
    rw [tqStep, if_pos ⟨Nat.zero_and _, Nat.zero_and _⟩, dvGet_ok hlen0, except_ok_bind,
      Nat.zero_xor, Nat.zero_xor]
    rcases Decidable.em (s.num_qubits ≤ target) with hts | hts
    · rw [dvGet_err (by rw [hwf]; exact Nat.pow_le_pow_right (by norm_num) hts),
        except_error_bind]
    · have hcs : s.num_qubits ≤ control := by
        rcases h with h1 | h1
        · exact h1
        · exact absurd h1 hts
      rw [dvGet_ok (show 2 ^ target < s.amplitudes.length from by
          rw [hwf]; exact Nat.pow_lt_pow_right (show 1 < 2 by norm_num) (by omega)),
        except_ok_bind,
        dvGet_err (show s.amplitudes.length ≤ 2 ^ control from by
          rw [hwf]; exact Nat.pow_le_pow_right (by norm_num) hcs),
        except_error_bind]
  obtain ⟨m, hm⟩ : ∃ m, 2 ^ s.num_qubits = m + 1 := ⟨2 ^ s.num_qubits - 1, by omega⟩
  simp only [applyTwoQubitGate]
  rw [hm, List.range_succ_eq_map, List.foldlM_cons, hstep, except_error_bind,
    except_error_bind]

/-- C2 witness (for the amended claim): CNOT with `control = 0`,
`target = 1` on the 1-qubit register panics out of bounds. -/
theorem applyTwoQubitGate_no_validation_witness :
    applyTwoQubitGate Gates.cnot 0 1 (QState.new 1) = .error .indexOutOfBounds :=
  applyTwoQubitGate_no_validation.1 Gates.cnot 0 1 (QState.new 1)
    (by with_unfolding_all decide) (Or.inr (by decide))

/-- C2 counterexample to the claim as stated: the precondition-violating
call `apply_two_qubit_gate(CNOT, control = 0, target = 0)` on the 1-qubit
register neither fails with `InvalidQubitIndex` nor leaves the vector
unchanged — it completes and flips `[1, 0]` to `[0, 1]` (the overlapping
quadruple writes overwrite each other). -/
theorem applyTwoQubitGate_equal_qubits_counterexample :
    applyTwoQubitGate Gates.cnot 0 0 (QState.new 1) ≠ .error .invalidQubitIndex ∧
    applyTwoQubitGate Gates.cnot 0 0 (QState.new 1) = .ok ⟨[⟨0, 0⟩, ⟨1, 0⟩], 1⟩ ∧
    (⟨[⟨0, 0⟩, ⟨1, 0⟩], 1⟩ : QState) ≠ QState.new 1 := by
  with_unfolding_all decide

/-! Measurement lemmas. -/

theorem getD_eq_getElem {α : Type} {l : List α} {i : Nat} (d : α) (h : i < l.length) :
    l.getD i d = l[i] := by
  rw [List.getD_eq_getElem?_getD, List.getElem?_eq_getElem h]
  rfl

theorem bump_snd_sum (m : List (String × Nat)) (k : String) :
    ((bump m k).map Prod.snd).sum = (m.map Prod.snd).sum + 1 := by
  induction m with
  | nil => rfl
  | cons e rest ih =>
    obtain ⟨k', c⟩ := e
    rw [bump]
    rcases Decidable.em (k' = k) with h | h
    · rw [if_pos h]
      simp only [List.map_cons, List.sum_cons]
      omega
    · rw [if_neg h]
      simp only [List.map_cons, List.sum_cons, ih]
      omega

theorem bump_pos {m : List (String × Nat)} (k : String) (h : ∀ e ∈ m, 0 < e.2) :
    ∀ e ∈ bump m k, 0 < e.2 := by
  induction m with
  | nil =>
    intro e he
    rw [bump] at he
    simp only [List.mem_singleton] at he
    subst he
    norm_num
  | cons f rest ih =>
    obtain ⟨k', c⟩ := f
    intro e he
    rw [bump] at he
    rcases Decidable.em (k' = k) with hk | hk
    · rw [if_pos hk] at he
      rcases List.mem_cons.mp he with h1 | h1
      · subst h1
        norm_num
      · exact h e (List.mem_cons_of_mem _ h1)
    · rw [if_neg hk] at he
      rcases List.mem_cons.mp he with h1 | h1
      · subst h1
        exact h (k', c) (List.mem_cons_self _ _)
      · exact ih (fun e2 he2 => h e2 (List.mem_cons_of_mem _ he2)) e h1

theorem mem_bump {m : List (String × Nat)} {k : String} {e : String × Nat}
    (h : e ∈ bump m k) : e.1 = k ∨ e ∈ m := by
  induction m with
  | nil =>
    rw [bump] at h
    simp only [List.mem_singleton] at h
    subst h
    exact Or.inl rfl
  | cons f rest ih =>
    obtain ⟨k', c⟩ := f
    rw [bump] at h
    rcases Decidable.em (k' = k) with hk | hk
    · rw [if_pos hk] at h
      rcases List.mem_cons.mp h with h1 | h1
      · subst h1
        exact Or.inl hk
      · exact Or.inr (List.mem_cons_of_mem _ h1)
    · rw [if_neg hk] at h
      rcases List.mem_cons.mp h with h1 | h1
      · subst h1
        exact Or.inr (List.mem_cons_self _ _)
      · rcases ih h1 with h2 | h2
        · exact Or.inl h2
        · exact Or.inr (List.mem_cons_of_mem _ h2)

theorem foldl_bump_sum (key : ℚ → String) (us : List ℚ) :
    ∀ m : List (String × Nat),
      (((us.foldl (fun r u => bump r (key u)) m)).map Prod.snd).sum =
        (m.map Prod.snd).sum + us.length := by
  induction us with
  | nil => intro m; simp
  | cons u rest ih =>
    intro m
    rw [List.foldl_cons, ih, bump_snd_sum, List.length_cons]
    omega

theorem foldl_bump_pos (key : ℚ → String) (us : List ℚ) :
    ∀ m : List (String × Nat), (∀ e ∈ m, 0 < e.2) →
      ∀ e ∈ us.foldl (fun r u => bump r (key u)) m, 0 < e.2 := by
  induction us with
  | nil => intro m h; exact h
  | cons u rest ih =>
    intro m h
    rw [List.foldl_cons]
    exact ih _ (bump_pos _ h)

theorem mem_foldl_bump (key : ℚ → String) (us : List ℚ) :
    ∀ (m : List (String × Nat)) (e : String × Nat),
      e ∈ us.foldl (fun r u => bump r (key u)) m →
      (∃ u ∈ us, e.1 = key u) ∨ e ∈ m := by
  induction us with
  | nil => intro m e h; exact Or.inr h
  | cons u rest ih =>
    intro m e h
    rw [List.foldl_cons] at h
    rcases ih _ e h with ⟨u2, hu2, hk⟩ | h2
    · exact Or.inl ⟨u2, List.mem_cons_of_mem _ hu2, hk⟩
    · rcases mem_bump h2 with h3 | h3
      · exact Or.inl ⟨u, List.mem_cons_self _ _, h3⟩
      · exact Or.inr h3

theorem position_found (p : ℚ → Bool) :
    ∀ (l : List ℚ) (i : Nat), i < l.length → p (l.getD i 0) = true →
      ∃ r, position p l = some r ∧ r ≤ i ∧ r < l.length ∧ p (l.getD r 0) = true ∧
        ∀ j < r, p (l.getD j 0) = false := by
  intro l
  induction l with
  | nil => intro i hi; simp at hi
  | cons x xs ih =>
    intro i hi hp
    rcases hx : p x with hfalse | htrue
    · rcases i with _ | i2
      · rw [List.getD_cons_zero] at hp
        rw [hp] at hx
        cases hx
      · rw [List.getD_cons_succ] at hp
        obtain ⟨r, hr, hle, hlt, hpr, hleast⟩ := ih i2 (by simpa using hi) hp
        refine ⟨r + 1, ?_, by omega, by simpa using hlt, by simpa using hpr, ?_⟩
        · rw [position, if_neg (by simp [hx]), hr]
          rfl
        · intro j hj
          rcases j with _ | j2
          · simpa using hx
          · rw [List.getD_cons_succ]
            exact hleast j2 (by omega)
    · refine ⟨0, ?_, by omega, by simp, by simpa using hx, by omega⟩
      rw [position, if_pos hx]

theorem position_none (p : ℚ → Bool) :
    ∀ l : List ℚ, (∀ i < l.length, p (l.getD i 0) = false) → position p l = none := by
  intro l
  induction l with
  | nil => intro _; rfl
  | cons x xs ih =>
    intro h
    rw [position, if_neg (by simpa using h 0 (by simp)), ih fun i hi => ?_]
    · rfl
    · have := h (i + 1) (by simpa using hi)
      rwa [List.getD_cons_succ] at this

theorem sampleIndex_found {cum : List ℚ} {u : ℚ} {i : Nat}
    (hi : i < cum.length) (hu : u < cum.getD i 0) :
    sampleIndex cum u ≤ i ∧ sampleIndex cum u < cum.length ∧
    u < cum.getD (sampleIndex cum u) 0 ∧
    ∀ j < sampleIndex cum u, ¬ u < cum.getD j 0 := by
  obtain ⟨r, hr, hle, hlt, hp, hleast⟩ :=
    position_found (fun x => decide (u < x)) cum i hi (by simpa using hu)
  rw [sampleIndex, hr, Option.getD_some]
  refine ⟨hle, hlt, by simpa using hp, fun j hj => by simpa using hleast j hj⟩

theorem sampleIndex_fallback {cum : List ℚ} {u : ℚ}
    (h : ∀ i < cum.length, ¬ u < cum.getD i 0) : sampleIndex cum u = 0 := by
  rw [sampleIndex, position_none _ cum fun i hi => by simpa using h i hi]
  rfl

theorem cumsum_length (ps : List ℚ) : ∀ a : ℚ, (cumsum a ps).length = ps.length := by
  induction ps with
  | nil => intro a; rfl
  | cons p rest ih => intro a; rw [cumsum, List.length_cons, List.length_cons, ih]

theorem cumsum_getD (ps : List ℚ) : ∀ (a : ℚ) (i : Nat), i < ps.length →
    (cumsum a ps).getD i 0 = a + (ps.take (i + 1)).sum := by
  induction ps with
  | nil => intro a i h; simp at h
  | cons p rest ih =>
    intro a i h
    rcases i with _ | i2
    · rw [cumsum, List.getD_cons_zero, List.take_succ_cons, List.take_zero,
        List.sum_cons, List.sum_nil, add_zero]
    · rw [cumsum, List.getD_cons_succ, ih (a + p) i2 (by simpa using h),
        List.take_succ_cons, List.sum_cons]
      ring

/-- For draws below the total probability mass, the selected basis index is
in range and its probability is strictly positive (the fallback is never
taken and a prefix-sum step is strictly increasing exactly at a positive
probability). -/
theorem sampleIndex_pos_prob (ps : List ℚ) (u : ℚ) (h0 : 0 ≤ u) (hsum : u < ps.sum) :
    sampleIndex (cumsum 0 ps) u < ps.length ∧
    0 < ps.getD (sampleIndex (cumsum 0 ps) u) 0 := by
  have hne : ps ≠ [] := by
    rintro rfl
    rw [List.sum_nil] at hsum
    exact absurd hsum (by linarith)
  have hlen0 : 0 < ps.length := List.length_pos.mpr hne
  have hlen : (cumsum 0 ps).length = ps.length := cumsum_length ps 0
  have hlast : (cumsum 0 ps).getD (ps.length - 1) 0 = ps.sum := by
    rw [cumsum_getD ps 0 (ps.length - 1) (by omega),
      show ps.length - 1 + 1 = ps.length from by omega, List.take_length, zero_add]
  obtain ⟨hle, hlt, hu, hleast⟩ :=
    sampleIndex_found (show ps.length - 1 < (cumsum 0 ps).length from by omega)
      (show u < (cumsum 0 ps).getD (ps.length - 1) 0 from by rw [hlast]; exact hsum)
  have hdx : sampleIndex (cumsum 0 ps) u < ps.length := hlen ▸ hlt
  refine ⟨hdx, ?_⟩
  rcases hr : sampleIndex (cumsum 0 ps) u with _ | r2
  · have h1 : (cumsum 0 ps).getD 0 0 = ps.getD 0 0 := by
      rw [cumsum_getD ps 0 0 hlen0, zero_add]
      cases ps with
      | nil => exact absurd rfl hne
      | cons p rest =>
        rw [List.take_succ_cons, List.take_zero, List.sum_cons, List.sum_nil, add_zero,
          List.getD_cons_zero]
    rw [hr, h1] at hu
    linarith
  · have hstep : (cumsum 0 ps).getD (r2 + 1) 0 = (cumsum 0 ps).getD r2 0 + ps.getD (r2 + 1) 0 := by
      have hr2 : r2 + 1 < ps.length := hr ▸ hdx
      rw [cumsum_getD ps 0 (r2 + 1) hr2, cumsum_getD ps 0 r2 (by omega), zero_add, zero_add,
        List.sum_take_succ ps (r2 + 1) hr2, getD_eq_getElem 0 hr2]
    have hprev := hleast r2 (by omega)
    rw [hr, hstep] at hu
    linarith [not_lt.mp hprev]

/-- `bump` applied to the singleton map of its own key. -/
theorem bump_singleton_self (key : String) (k : Nat) :
    bump [(key, k)] key = [(key, k + 1)] := by
  rw [bump, if_pos rfl]

theorem foldl_bump_const (key : String) : ∀ (us : List ℚ) (k : Nat),
    us.foldl (fun r (_ : ℚ) => bump r key) [(key, k)] = [(key, k + us.length)] := by
  intro us
  induction us with
  | nil => intro k; simp
  | cons u rest ih =>
    intro k
    rw [List.foldl_cons]
    show rest.foldl (fun r (_ : ℚ) => bump r key) (bump [(key, k)] key) = _
    rw [bump_singleton_self, ih (k + 1), List.length_cons, Nat.add_assoc,
      Nat.add_comm 1 rest.length]

/-- C5: `measure` returns a mapping whose counts are all nonzero and sum
exactly to the number of shots, and — taking `&self` — it hands the
register back untouched, so a successive call on the returned register is
the same function of the same fixed state (independent draws from the
same distribution, the randomness being the injected draw stream). -/
theorem measure_counts_spec (s : QState) (draws : List ℚ) :
    ((measureCall s draws).1.map Prod.snd).sum = draws.length ∧
    (∀ e ∈ (measureCall s draws).1, 0 < e.2) ∧
    (measureCall s draws).2 = s ∧
    QState.measure (measureCall s draws).2 = QState.measure s := by
  refine ⟨?_, ?_, rfl, rfl⟩
  · show ((draws.foldl (fun results u => bump results
      (bitString (sampleIndex (cumsum 0 (s.amplitudes.map Cplx.normSq)) u) s.num_qubits))
        []).map Prod.snd).sum = draws.length
    rw [foldl_bump_sum]
    simp
  · show ∀ e ∈ draws.foldl (fun results u => bump results
      (bitString (sampleIndex (cumsum 0 (s.amplitudes.map Cplx.normSq)) u) s.num_qubits)) [],
        0 < e.2
    exact foldl_bump_pos _ draws [] (by simp)

/-- C6: `measure` builds the cumulative distribution as the prefix sum of
the per-basis-index probabilities in index order, and each draw selects
the first basis index whose cumulative value strictly exceeds `u`
(a least-index characterization of `position(|&x| x > random)`); when no
cumulative value exceeds `u`, the draw falls back to basis index 0
(`unwrap_or(0)`) rather than failing. -/
theorem measure_sampling_spec (s : QState) (draws : List ℚ) (u : ℚ) :
    QState.measure s draws = draws.foldl (fun results v =>
      bump results (bitString (sampleIndex (cumsum 0 (s.amplitudes.map Cplx.normSq)) v)
        s.num_qubits)) [] ∧
    (cumsum 0 (s.amplitudes.map Cplx.normSq)).length = (s.amplitudes.map Cplx.normSq).length ∧
    (∀ i < (s.amplitudes.map Cplx.normSq).length,
      (cumsum 0 (s.amplitudes.map Cplx.normSq)).getD i 0 =
        ((s.amplitudes.map Cplx.normSq).take (i + 1)).sum) ∧
    (∀ i, i < (cumsum 0 (s.amplitudes.map Cplx.normSq)).length →
      u < (cumsum 0 (s.amplitudes.map Cplx.normSq)).getD i 0 →
      sampleIndex (cumsum 0 (s.amplitudes.map Cplx.normSq)) u ≤ i ∧
      sampleIndex (cumsum 0 (s.amplitudes.map Cplx.normSq)) u <
        (cumsum 0 (s.amplitudes.map Cplx.normSq)).length ∧
      u < (cumsum 0 (s.amplitudes.map Cplx.normSq)).getD
        (sampleIndex (cumsum 0 (s.amplitudes.map Cplx.normSq)) u) 0 ∧
      ∀ j < sampleIndex (cumsum 0 (s.amplitudes.map Cplx.normSq)) u,
        ¬ u < (cumsum 0 (s.amplitudes.map Cplx.normSq)).getD j 0) ∧
    ((∀ i < (cumsum 0 (s.amplitudes.map Cplx.normSq)).length,
      ¬ u < (cumsum 0 (s.amplitudes.map Cplx.normSq)).getD i 0) →
      sampleIndex (cumsum 0 (s.amplitudes.map Cplx.normSq)) u = 0) := by
  refine ⟨rfl, cumsum_length _ 0, ?_, ?_, ?_⟩
  · intro i hi
    rw [cumsum_getD _ 0 i hi, zero_add]
  · intro i hi hu
    exact sampleIndex_found hi hu
  · intro h
    exact sampleIndex_fallback h

/-- C6 witness: on the 1-qubit `|0⟩` register with draw `1/2`, the first
cumulative entry already exceeds the draw, so the selected index is least,
in range, and strictly exceeds the draw. -/
theorem measure_sampling_spec_witness :
    sampleIndex (cumsum 0 ((QState.new 1).amplitudes.map Cplx.normSq)) (1/2) ≤ 0 ∧
    sampleIndex (cumsum 0 ((QState.new 1).amplitudes.map Cplx.normSq)) (1/2) <
      (cumsum 0 ((QState.new 1).amplitudes.map Cplx.normSq)).length ∧
    (1/2 : ℚ) < (cumsum 0 ((QState.new 1).amplitudes.map Cplx.normSq)).getD
      (sampleIndex (cumsum 0 ((QState.new 1).amplitudes.map Cplx.normSq)) (1/2)) 0 ∧
    ∀ j < sampleIndex (cumsum 0 ((QState.new 1).amplitudes.map Cplx.normSq)) (1/2),
      ¬ (1/2 : ℚ) < (cumsum 0 ((QState.new 1).amplitudes.map Cplx.normSq)).getD j 0 :=
  (measure_sampling_spec (QState.new 1) [] (1/2)).2.2.2.1 0 (by with_unfolding_all decide)
    (by with_unfolding_all decide)

/-- C7 (amended): when every draw is a uniform value `0 ≤ u` strictly below
the register's total probability mass (in particular any normalized state,
whose total is 1 while draws lie in `[0,1)`), every bitstring of the
returned mapping denotes a basis index of strictly positive probability.
The amendment restricts the claim to draws below the total mass: on
sub-normalized states the `unwrap_or(0)` fallback reports basis index 0
even when its probability is exactly 0 (see the counterexample). -/
theorem measure_no_zero_probability (s : QState) (draws : List ℚ) (hwf : s.wf)
    (hdraws : ∀ u ∈ draws, 0 ≤ u ∧ u < (getProbabilities s).sum) :
    ∀ e ∈ QState.measure s draws, ∃ i < 2 ^ s.num_qubits,
      e.1 = bitString i s.num_qubits ∧ 0 < (getProbabilities s).getD i 0 := by
  intro e he
  have he2 : e ∈ draws.foldl (fun results u => bump results
      (bitString (sampleIndex (cumsum 0 (s.amplitudes.map Cplx.normSq)) u) s.num_qubits)) [] :=
    he
  rcases mem_foldl_bump _ draws [] e he2 with ⟨u, humem, hkey⟩ | habs
  · obtain ⟨h0, hlt⟩ := hdraws u humem
    obtain ⟨hdx, hpos⟩ := sampleIndex_pos_prob (s.amplitudes.map Cplx.normSq) u h0 hlt
    refine ⟨sampleIndex (cumsum 0 (s.amplitudes.map Cplx.normSq)) u, ?_, hkey, hpos⟩
    rw [List.length_map, hwf] at hdx
    exact hdx
  · simp at habs

/-- C7 witness: measuring the 1-qubit `|0⟩` register with the valid draw
`1/2` puts the entry `(bitString 0 1, 1)` in the map, and its key denotes
a basis index of positive probability. -/
theorem measure_no_zero_probability_witness :
    ∃ i < 2 ^ (QState.new 1).num_qubits,
      (bitString 0 1, 1).1 = bitString i (QState.new 1).num_qubits ∧
      0 < (getProbabilities (QState.new 1)).getD i 0 :=
  measure_no_zero_probability (QState.new 1) [(1 : ℚ)/2] (by with_unfolding_all decide)
    (by with_unfolding_all decide) (bitString 0 1, 1) (by with_unfolding_all decide)

/-- C7 counterexample to the claim as stated (over *every* register
state): the state with amplitudes `[0, 0]` — produced by the repository's
own catalog, e.g. `measurement_z(false)` applied to the `X|0⟩` register —
has probability exactly 0 at every basis index, yet `measure` with the
legitimate draw `1/2` takes the `unwrap_or(0)` fallback and returns the
bitstring of basis index 0, whose probability is exactly 0. -/
theorem measure_zero_probability_counterexample :
    applySingleQubitGate (Gates.measurement_z false) 0 (⟨[⟨0, 0⟩, ⟨1, 0⟩], 1⟩ : QState) =
      .ok ⟨[⟨0, 0⟩, ⟨0, 0⟩], 1⟩ ∧
    QState.measure (⟨[⟨0, 0⟩, ⟨0, 0⟩], 1⟩ : QState) [(1 : ℚ)/2] = [(bitString 0 1, 1)] ∧
    (getProbabilities (⟨[⟨0, 0⟩, ⟨0, 0⟩], 1⟩ : QState)).getD 0 0 = 0 ∧
    ¬ (∀ e ∈ QState.measure (⟨[⟨0, 0⟩, ⟨0, 0⟩], 1⟩ : QState) [(1 : ℚ)/2],
      ∃ i < 2 ^ (⟨[⟨0, 0⟩, ⟨0, 0⟩], 1⟩ : QState).num_qubits,
        e.1 = bitString i (⟨[⟨0, 0⟩, ⟨0, 0⟩], 1⟩ : QState).num_qubits ∧
        0 < (getProbabilities (⟨[⟨0, 0⟩, ⟨0, 0⟩], 1⟩ : QState)).getD i 0) := by
  with_unfolding_all decide

/-- C10: on the degenerate 0-qubit register (one amplitude), every
positive number of shots yields exactly the one-entry mapping from the
one-character key `"0"` — `format!("{:0width$b}", 0, width = 0)` prints
one digit, not the fixed width 0 — to the shot count, and zero shots
yield the empty mapping. -/
theorem measure_zero_qubit_register (draws : List ℚ) (h : draws ≠ []) :
    QState.measure (QState.new 0) draws = [(bitString 0 0, draws.length)] ∧
    bitString 0 0 = "0" ∧ (bitString 0 0).length = 1 ∧
    QState.measure (QState.new 0) [] = [] := by
  refine ⟨?_, by with_unfolding_all rfl, by with_unfolding_all rfl, rfl⟩
  have hcum : cumsum 0 ((QState.new 0).amplitudes.map Cplx.normSq) = [1] := by
    with_unfolding_all rfl
  have hkey : ∀ u : ℚ, bitString (sampleIndex [(1 : ℚ)] u) 0 = bitString 0 0 := by
    intro u
    rcases Decidable.em (u < 1) with h1 | h1
    · rw [sampleIndex, position, if_pos (by simpa using h1)]
      rfl
    · rw [sampleIndex, position, if_neg (by simpa using h1), position]
      rfl
  show draws.foldl (fun results u => bump results
    (bitString (sampleIndex (cumsum 0 ((QState.new 0).amplitudes.map Cplx.normSq)) u) 0)) []
      = [(bitString 0 0, draws.length)]
  rw [hcum]
  rw [List.foldl_ext _ (fun results (_ : ℚ) => bump results (bitString 0 0)) []
    fun m v _ => by rw [hkey v]]
  cases draws with
  | nil => exact absurd rfl h
  | cons u rest =>
    rw [List.foldl_cons]
    show rest.foldl (fun r (_ : ℚ) => bump r (bitString 0 0)) [(bitString 0 0, 1)] =
      [(bitString 0 0, (u :: rest).length)]
    rw [foldl_bump_const, List.length_cons, Nat.add_comm]

/-- C10 witness: one shot on the 0-qubit register. -/
theorem measure_zero_qubit_register_witness :
    QState.measure (QState.new 0) [(1 : ℚ)/2] = [(bitString 0 0, [(1 : ℚ)/2].length)] ∧
    bitString 0 0 = "0" ∧ (bitString 0 0).length = 1 ∧
    QState.measure (QState.new 0) [] = [] :=
  measure_zero_qubit_register [(1 : ℚ)/2] (by decide)

/-! Fidelity lemmas. -/

theorem zipWith_eq_range_map (f : Cplx → Cplx → Cplx) :
    ∀ (a b : List Cplx), a.length = b.length →
      List.zipWith f a b = (List.range a.length).map fun i => f (a.getD i 0) (b.getD i 0) := by
  intro a
  induction a with
  | nil => intro b h; simp
  | cons x xs ih =>
    intro b h
    cases b with
    | nil => simp at h
    | cons y ys =>
      rw [List.zipWith_cons_cons, List.length_cons, List.range_succ_eq_map, List.map_cons,
        ih ys (by simpa using h), List.map_map]
      congr 1

theorem zipWith_self_eq_map (f : Cplx → Cplx → Cplx) (l : List Cplx) :
    List.zipWith f l l = l.map fun a => f a a := by
  induction l with
  | nil => rfl
  | cons x xs ih => rw [List.zipWith_cons_cons, List.map_cons, ih]

theorem sum_map_real (l : List Cplx) (f : Cplx → ℚ) :
    (l.map fun a => (⟨f a, 0⟩ : Cplx)).sum = ⟨(l.map f).sum, 0⟩ := by
  induction l with
  | nil => rfl
  | cons x xs ih =>
    rw [List.map_cons, List.sum_cons, ih, List.map_cons, List.sum_cons, Cplx.add_def]
    norm_num

/-- C8: `get_fidelity` returns exactly 0 whenever the two registers have
different qubit counts; for equal counts it returns
`|Σᵢ conj(self[i])·other[i]|²` over the `2^n` amplitude pairs (a pure
computation of the two borrowed vectors — `&self` and `&target_state` are
shared references, so neither register is mutated); and it returns exactly
1 on `get_fidelity(a, a)` for every normalized `a` (probability mass
exactly 1). -/
theorem getFidelity_spec (s t : QState) (hwfs : s.wf) (hwft : t.wf) :
    (s.num_qubits ≠ t.num_qubits → getFidelity s t = 0) ∧
    (s.num_qubits = t.num_qubits → getFidelity s t =
      Cplx.normSq (((List.range (2 ^ s.num_qubits)).map
        fun i => Cplx.conj (s.amplitudes.getD i 0) * t.amplitudes.getD i 0).sum)) ∧
    ((getProbabilities s).sum = 1 → getFidelity s s = 1) := by
  refine ⟨fun h => by rw [getFidelity, if_pos h], fun h => ?_, fun h => ?_⟩
  · rw [getFidelity, if_neg (by simp [h]),
      zipWith_eq_range_map _ _ _ (by rw [hwfs, hwft, h]), hwfs]
  · rw [getFidelity, if_neg (by simp), zipWith_self_eq_map,
      show s.amplitudes.map (fun a => Cplx.conj a * a) =
        s.amplitudes.map (fun a => (⟨Cplx.normSq a, 0⟩ : Cplx)) from
        List.map_congr_left fun a _ => Cplx.conj_mul_self a,
      sum_map_real, show (s.amplitudes.map Cplx.normSq).sum = 1 from h]
    norm_num [Cplx.normSq]

/-- C8 witness: registers of different sizes give fidelity exactly 0, and
the normalized 1-qubit `|0⟩` register has self-fidelity exactly 1. -/
theorem getFidelity_spec_witness :
    getFidelity (QState.new 1) (QState.new 0) = 0 ∧
    getFidelity (QState.new 1) (QState.new 1) = 1 :=
  ⟨(getFidelity_spec (QState.new 1) (QState.new 0) (by with_unfolding_all decide)
      (by with_unfolding_all decide)).1 (by decide),
    (getFidelity_spec (QState.new 1) (QState.new 1) (by with_unfolding_all decide)
      (by with_unfolding_all decide)).2.2 (by with_unfolding_all decide)⟩
